import Mathlib

/-!
Verification of the research-pipeline processor (`src/research_stages.py`,
class `ResearchProcessor`) of the Maclay-3.0 repository.

The Python code is shallowly embedded: strings are `String` (or `List Char`
for character-level scanning functions), Python dictionaries with a fixed key
set become structures with `Option` fields (a `none` field models an absent
key), network effects become explicit outcome arguments (`Except`, oracle
functions), and `await asyncio.sleep` calls are recorded in an explicit
trace of sleep durations.  Functions whose body is only partially present in
the repository snapshot are reconstructed from the specification and marked
`Modelled from the spec:` in their doc comment.
-/

namespace Maclay

/-! Model client: `ResearchProcessor._call_deepseek`.

The Python loop performs up to `max_retries = 5` attempts.  Each loop
iteration performs one HTTP POST whose outcome we supply from an oracle
list: HTTP 503, some other failure (an exception from `raise_for_status`,
JSON decoding, or the request itself), or a successful generation. -/

/-- Outcome of one HTTP POST inside `_call_deepseek`. -/
inductive HFOutcome where
  | s503 : HFOutcome
  | httpErr (e : String) : HFOutcome
  | ok (text : String) : HFOutcome
deriving DecidableEq, Repr

/-- Final result of `_call_deepseek`. -/
inductive CallResult where
  | success (text : String) : CallResult
  | raised (e : String) : CallResult
  | pending : CallResult
deriving DecidableEq, Repr

/-- The retry loop of `_call_deepseek` (`src/research_stages.py`).
`outcomes` supplies the result of each successive HTTP POST; the returned
list records the durations of the `asyncio.sleep` calls, in order.
`CallResult.pending` stands for an execution whose oracle ran out of
outcomes (the real loop would keep issuing requests). -/
def callDeepseekGo (maxRetries : Nat) : List HFOutcome → Nat → List Nat × CallResult
  | [], _ => ([], .pending)
  | o :: rest, attempt =>
    if attempt < maxRetries then
      match o with
      | .s503 =>
        let r := callDeepseekGo maxRetries rest attempt
        (5 :: r.1, r.2)
      | .ok text => ([], .success text)
      | .httpErr e =>
        if attempt + 1 ≥ maxRetries then ([], .raised e)
        else
          let r := callDeepseekGo maxRetries rest (attempt + 1)
          (2 ^ (attempt + 1) :: r.1, r.2)
    else ([], .pending)

/-- `_call_deepseek` with the source constants: `max_retries = 5`, starting
at `attempt = 0`. -/
def callDeepseek (outcomes : List HFOutcome) : List Nat × CallResult :=
  callDeepseekGo 5 outcomes 0

/-! Stage retry wrapper: `ResearchProcessor._execute_with_retry`. -/

/-- One `send_update` message, as assembled by `ResearchProcessor.send_update`
(we keep the stage name, status, progress and message; the timestamp is
omitted). -/
structure Update where
  stage : String
  status : String
  progress : Nat
  message : String
deriving DecidableEq, Repr

/-- Result of a stage run through `_execute_with_retry`. -/
inductive StageResult (α : Type) where
  | success (v : α) : StageResult α
  | failure (error : String) (errorDetails : String) : StageResult α
  | pending : StageResult α
deriving DecidableEq, Repr

/-- Trace of one `_execute_with_retry` run. -/
structure RetryTrace (α : Type) where
  updates : List Update
  sleeps : List Nat
  calls : Nat
  result : StageResult α
deriving DecidableEq, Repr

/-- The retry-attempt progress message of `_execute_with_retry`. -/
def retryMessage (attempt maxRetries : Nat) : String :=
  s!"Повторная попытка {attempt + 1}/{maxRetries}..."

/-- The loop of `_execute_with_retry` (`src/research_stages.py`).  Each
element of `outcomes` is the outcome of one invocation of the wrapped stage
function.  Modelled from the spec: the success path (`return result`) and
the post-exhaustion structured failure `{success: false, error,
error_details}` are reconstructed from the specification (the middle of the
function body is missing from the repository snapshot); the loop header,
the retry progress update, the `2 ** attempt` backoff and the shape of the
failure object are taken from the source. -/
def executeWithRetryGo (stageName : String) (maxRetries : Nat) {α : Type} :
    List (Except String α) → Nat → RetryTrace α
  | [], _ => ⟨[], [], 0, .pending⟩
  | o :: rest, attempt =>
    if attempt < maxRetries then
      let preUpd : List Update :=
        if attempt > 0 then [⟨stageName, "active", 0, retryMessage attempt maxRetries⟩] else []
      let preSleep : List Nat := if attempt > 0 then [2 ^ attempt] else []
      match o with
      | .ok v => ⟨preUpd, preSleep, 1, .success v⟩
      | .error e =>
        if attempt + 1 < maxRetries then
          let r := executeWithRetryGo stageName maxRetries rest (attempt + 1)
          ⟨preUpd ++ r.updates, preSleep ++ r.sleeps, 1 + r.calls, r.result⟩
        else ⟨preUpd, preSleep, 1, .failure e (s!"{stageName}: {e}")⟩
    else ⟨[], [], 0, .pending⟩

/-- `_execute_with_retry` with the source constant `max_retries = 3`. -/
def executeWithRetry (stageName : String) {α : Type}
    (outcomes : List (Except String α)) : RetryTrace α :=
  executeWithRetryGo stageName 3 outcomes 0

/-! Character-level helpers shared by the text extractors.  Python strings
are modelled as `List Char`; `str.strip`, `str.split` and `str.lower` are
reimplemented below with the semantics Python gives them on the character
sets this program uses. -/

/-- Python `\s` / `str.strip()` whitespace, restricted to the ASCII
whitespace characters that occur in this program's data. -/
def isWs (c : Char) : Bool :=
  c = ' ' ∨ c = '\t' ∨ c = '\n' ∨ c = '\r' ∨ c = '\x0b' ∨ c = '\x0c'

/-- Python `str.lower` for the alphabets used by the label keywords:
ASCII letters and the Russian alphabet. -/
def lowerChar (c : Char) : Char :=
  if 'A' ≤ c ∧ c ≤ 'Z' then Char.ofNat (c.toNat + 32)
  else if 'А' ≤ c ∧ c ≤ 'Я' then Char.ofNat (c.toNat + 32)
  else if c = 'Ё' then 'ё'
  else c

/-- Lowercase an entire line (`line.lower()`). -/
def lowerL (l : List Char) : List Char := l.map lowerChar

/-- Python `needle in hay` substring containment. -/
def containsSeq (needle : List Char) : List Char → Bool
  | [] => needle.isEmpty
  | c :: rest => needle.isPrefixOf (c :: rest) || containsSeq needle rest

/-- Python `text.split('\n')`: split at every newline, keeping empty
pieces. -/
def splitNl : List Char → List (List Char)
  | [] => [[]]
  | c :: rest =>
    if c = '\n' then [] :: splitNl rest
    else
      match splitNl rest with
      | l :: ls => (c :: l) :: ls
      | [] => [[c]]

/-- Right-trim (`str.rstrip` over `p`-characters). -/
def trimEndWhile (p : Char → Bool) : List Char → List Char
  | [] => []
  | c :: rest =>
    let r := trimEndWhile p rest
    if r.isEmpty ∧ p c then [] else c :: r

/-- Python `str.strip()` (both-ends whitespace trim). -/
def trimBoth (cs : List Char) : List Char :=
  trimEndWhile isWs (cs.dropWhile isWs)

/-- Python `line.strip(chars)` for an explicit character set. -/
def stripChars (p : Char → Bool) (cs : List Char) : List Char :=
  trimEndWhile p (cs.dropWhile p)

/-- Remainder of the line after its first colon, stripped
(`line.split(':', 1)[1].strip() if ':' in line else line`). -/
def afterColon (l : List Char) : List Char :=
  if l.any (fun c => c = ':') then trimBoth ((l.dropWhile (fun c => ¬(c = ':'))).drop 1)
  else l

/-! Company extraction: `ResearchProcessor.extract_companies_from_text`. -/

/-- Label keywords that start a new company record. -/
def nameKeywords : List (List Char) :=
  ["компания:", "company:", "название:", "name:", "продукт:", "product:"].map String.toList

/-- Label keywords for the website field. -/
def siteKeywords : List (List Char) :=
  ["сайт:", "website:", "url:"].map String.toList

/-- Label keywords for the country field. -/
def countryKeywords : List (List Char) :=
  ["страна:", "country:"].map String.toList

/-- Label keywords for the characteristics field. -/
def charKeywords : List (List Char) :=
  ["характеристики:", "characteristics:"].map String.toList

/-- Has the (stripped) line a company/name label?  The source checks
`keyword in line.lower()`: case-insensitive substring containment, anywhere
in the line. -/
def isNameLine (l : List Char) : Bool :=
  nameKeywords.any (fun k => containsSeq k (lowerL l))

/-- Website-label line test (substring containment, like `isNameLine`). -/
def isSiteLine (l : List Char) : Bool :=
  siteKeywords.any (fun k => containsSeq k (lowerL l))

/-- Country-label line test. -/
def isCountryLine (l : List Char) : Bool :=
  countryKeywords.any (fun k => containsSeq k (lowerL l))

/-- Characteristics-label line test. -/
def isCharLine (l : List Char) : Bool :=
  charKeywords.any (fun k => containsSeq k (lowerL l))

/-- One extracted company record.  The Python record is a dict; a `none`
field models an absent key (`links` is created on first use, so an absent
key is modelled by `[]`, which is how the rest of the program reads it). -/
structure Company where
  name : Option (List Char)
  website : Option (List Char)
  country : Option (List Char)
  characteristics : Option (List Char)
  links : List (List Char)
deriving DecidableEq, Repr

/-- The record started by a company-label line:
`{"name": line.split(':', 1)[1].strip() if ':' in line else line}`. -/
def newCompany (line : List Char) : Company :=
  ⟨some (afterColon line), none, none, none, []⟩

/-- Effect of one non-blank, non-name line on the current record (the
`elif` chain of `extract_companies_from_text`; `line` is already
stripped). -/
def fieldStep (c : Company) (line : List Char) : Company :=
  if isSiteLine line then { c with website := some (afterColon line) }
  else if isCountryLine line then { c with country := some (afterColon line) }
  else if isCharLine line then { c with characteristics := some (afterColon line) }
  else if ("http".toList).isPrefixOf line then { c with links := c.links ++ [line] }
  else c

/-- One iteration of the line loop of `extract_companies_from_text`:
state is (companies so far, current in-progress record). -/
def extractStep (st : List Company × Option Company) (raw : List Char) :
    List Company × Option Company :=
  let line := trimBoth raw
  if line = [] then
    match st.2 with
    | some c => (st.1 ++ [c], none)
    | none => (st.1, none)
  else if isNameLine line then
    ((match st.2 with | some c => st.1 ++ [c] | none => st.1), some (newCompany line))
  else (st.1, st.2.map (fun c => fieldStep c line))

/-- The whole line loop plus the final flush of
`extract_companies_from_text`. -/
def extractLines (lines : List (List Char)) : List Company :=
  let p := lines.foldl extractStep ([], none)
  p.1 ++ p.2.toList

/-- `ResearchProcessor.extract_companies_from_text`. -/
def extract_companies_from_text (text : String) : List Company :=
  extractLines (splitNl text.toList)

/-- Join lines back into a text with newline separators (inverse of
`splitNl` on newline-free lines). -/
def joinNl : List (List Char) → List Char
  | [] => []
  | [l] => l
  | l :: ls => l ++ '\n' :: joinNl ls

/-- A line that may appear inside a well-formed company block: non-blank
after stripping, and newline-free (it is a single line). -/
def WfBlockLine (l : List Char) : Prop :=
  trimBoth l ≠ [] ∧ '\n' ∉ l

/-- A well-formed company block: a nonempty run of non-blank lines whose
first line carries a company/name label and whose remaining lines do
not. -/
def WfBlock : List (List Char) → Prop
  | [] => False
  | h :: t =>
    isNameLine (trimBoth h) = true ∧ WfBlockLine h ∧
      ∀ l ∈ t, WfBlockLine l ∧ isNameLine (trimBoth l) = false

/-- The record a single well-formed block produces: the name from the head
line, then the field lines folded in order. -/
def recordOfBlock : List (List Char) → Company
  | [] => newCompany []
  | h :: t => t.foldl (fun c l => fieldStep c (trimBoth l)) (newCompany (trimBoth h))

/-- The line sequence of a list of blank-line-terminated blocks. -/
def blockLines (blocks : List (List (List Char))) : List (List Char) :=
  (blocks.map (fun b => b ++ [[]])).flatten

/-! Market-data stage: `parse_market_data` and
`_collect_market_data_internal`. -/

/-- The structured result of `parse_market_data` (the timestamp field is
omitted; the `except` branch of the Python function is unreachable because
the extraction above is total). -/
structure MarketData where
  raw_content : String
  companies : List Company
  research_type : String
  total_found : Nat
deriving Repr

/-- `ResearchProcessor.parse_market_data`. -/
def parse_market_data (content : String) (research_type : String) : MarketData :=
  let companies := extract_companies_from_text content
  ⟨content, companies, research_type, companies.length⟩

/-- Progress updates emitted by one run of
`_collect_market_data_internal`, as a function of the outcome of its
single `_call_deepseek` call. -/
def dataCollectionUpdates (outcome : Except String String)
    (research_type : String) : List Update :=
  match outcome with
  | .ok content =>
    let n := (parse_market_data content research_type).total_found
    [⟨"data_collection", "active", 10, "Подготавливаем запрос..."⟩,
     ⟨"data_collection", "active", 30, "Отправляем запрос к ИИ..."⟩,
     ⟨"data_collection", "active", 40, "Выполняем HTTP запрос..."⟩,
     ⟨"data_collection", "active", 70, "Обрабатываем ответ..."⟩,
     ⟨"data_collection", "active", 90, "Структурируем данные..."⟩,
     ⟨"data_collection", "completed", 100, s!"Найдено {n} компаний"⟩]
  | .error e =>
    [⟨"data_collection", "active", 10, "Подготавливаем запрос..."⟩,
     ⟨"data_collection", "active", 30, "Отправляем запрос к ИИ..."⟩,
     ⟨"data_collection", "active", 40, "Выполняем HTTP запрос..."⟩,
     ⟨"data_collection", "error", 0, "API Error: " ++ e⟩]

/-- One run of `_collect_market_data_internal`: its update trace and its
result (the failure case re-raises the exception after the error
update). -/
def collectMarketDataInternal (outcome : Except String String)
    (research_type : String) : List Update × Except String MarketData :=
  match outcome with
  | .ok content =>
    (dataCollectionUpdates (.ok content) research_type,
      .ok (parse_market_data content research_type))
  | .error e => (dataCollectionUpdates (.error e) research_type, .error e)

/-- Progress values of an update trace. -/
def progressOf (us : List Update) : List Nat := us.map (fun u => u.progress)

/-! Report extraction and link enhancement. -/

/-- `ResearchProcessor.extract_report_content` (the string version at the
end of the class body, which is the one Python retains):
`return response_text or "Ошибка при генерации отчета"`.  A `none`
argument models a `None` response. -/
def extract_report_content (response_text : Option String) : String :=
  match response_text with
  | none => "Ошибка при генерации отчета"
  | some s => if s = "" then "Ошибка при генерации отчета" else s

/-- One entry of a case's `verified_links` list. -/
structure VerifiedLink where
  url : Option String
  status : Option String
deriving DecidableEq, Repr

/-- A case record, restricted to the keys read by
`enhance_report_with_links` and the link-verification summary; a `none`
field models an absent key. -/
structure RCase where
  title : Option String
  company : Option String
  description : Option String
  verified_links : Option (List VerifiedLink)
  broken_links : Option (List VerifiedLink)
deriving DecidableEq, Repr

/-- A candidate link prepared for the enhancement prompt. -/
structure CandidateLink where
  url : Option String
  company : String
  context : String
deriving DecidableEq, Repr

/-- `case.get("title", case.get("company", "Unknown"))`. -/
def caseTitle (c : RCase) : String :=
  match c.title with
  | some t => t
  | none => c.company.getD "Unknown"

/-- The pool of working links gathered from the cases by
`enhance_report_with_links`. -/
def allVerifiedLinks (cases : List RCase) : List CandidateLink :=
  cases.foldl
    (fun acc c =>
      acc ++ ((c.verified_links.getD []).filter
          (fun l => l.status == some "working")).map
        (fun l => ⟨l.url, caseTitle c, c.description.getD ""⟩))
    []

/-- The truncation marker appended to an over-long report preview. -/
def truncationMarker : String := "\n\n[... остальная часть отчета ...]"

/-- `max_content_length` of `enhance_report_with_links`. -/
def maxContentLength : Nat := 15000

/-- The report preview sent to the model (character-level):
`report_content[:15000]`, plus the marker when the report was longer. -/
def reportPreviewL (r : List Char) : List Char :=
  if maxContentLength < r.length then r.take maxContentLength ++ truncationMarker.toList
  else r.take maxContentLength

/-- The candidate links actually serialized into the prompt
(`all_verified_links[:20]`). -/
def sentCandidateLinks (cases : List RCase) : List CandidateLink :=
  (allVerifiedLinks cases).take 20

/-- `ResearchProcessor.enhance_report_with_links`, as a function of the
gathered pool and of the outcome of the single model call (Python
truthiness: an empty enhanced string falls back to the original
report, and so does any exception). -/
def enhance_report_with_links (report : String) (cases : List RCase)
    (modelOutcome : Except String String) : String :=
  if (allVerifiedLinks cases).isEmpty then report
  else
    match modelOutcome with
    | .ok enhanced => if enhanced = "" then report else enhanced
    | .error _ => report

/-! Local-document insights: `ResearchProcessor.parse_local_insights`. -/

/-- A JSON value, as far as the insight normalization needs one.  Arrays
are arrays of strings here because the only array-valued insight field is
the `links` list. -/
inductive JVal where
  | null : JVal
  | str (s : String) : JVal
  | num (n : Int) : JVal
  | bool (b : Bool) : JVal
  | arr (xs : List String) : JVal
deriving DecidableEq, Repr

/-- Python truthiness of a JSON value (`x or default` keeps `x` exactly
when it is truthy). -/
def truthy : JVal → Bool
  | .null => false
  | .str s => s != ""
  | .num n => n != 0
  | .bool b => b
  | .arr xs => !xs.isEmpty

/-- A JSON object: association list from keys to values. -/
def JObj : Type := List (String × JVal)

/-- Python `item.get(k)`: `none` when the key is absent. -/
def jget (item : JObj) (k : String) : Option JVal :=
  (item.find? (fun p => p.1 == k)).map (fun p => p.2)

/-- Python `item.get(k) or default`. -/
def coalesce (v : Option JVal) (d : JVal) : JVal :=
  match v with
  | some x => if truthy x then x else d
  | none => d

/-- One normalized insight record.  The `sect` field models the Python
`"section"` key (`section` is a reserved word in Lean). -/
structure Insight where
  source_file : JVal
  download_link : JVal
  sect : JVal
  fact : JVal
  metrics : JVal
  date : JVal
  links : JVal
deriving DecidableEq, Repr

/-- Field normalization of one JSON insight object.  The `fact`,
`metrics`, `date` and `links` lines are the visible source
(`item.get("fact") or ""` and so on); Modelled from the spec: the
`source_file`, `download_link` and `section` defaults are reconstructed
from the specification's null-coalescing description and from the shape of
the fallback record, because the first lines of the normalization loop are
missing from the repository snapshot. -/
def normalizeInsight (item : JObj) : Insight :=
  ⟨coalesce (jget item "source_file") (.str "unknown.pdf"),
    coalesce (jget item "download_link") .null,
    coalesce (jget item "section") (.str ""),
    coalesce (jget item "fact") (.str ""),
    coalesce (jget item "metrics") .null,
    coalesce (jget item "date") .null,
    coalesce (jget item "links") (.arr [])⟩

/-- Characters stripped from both ends of a fallback line
(`line.strip(" -•*")`). -/
def isBulletChar (c : Char) : Bool :=
  c = ' ' ∨ c = '-' ∨ c = '•' ∨ c = '*'

/-- The minimal insight produced for one fallback line. -/
def fallbackInsight (line : List Char) : Insight :=
  ⟨.str "unknown.pdf", .null, .str "", .str (String.mk line), .null, .null, .arr []⟩

/-- The line fallback of `parse_local_insights`: every non-empty line,
after stripping leading/trailing bullet characters, becomes one minimal
insight. -/
def parseLocalInsightsFallback (content : String) : List Insight :=
  (splitNl content.toList).filterMap fun raw =>
    let line := stripChars isBulletChar raw
    if line.isEmpty then none else some (fallbackInsight line)

/-- `ResearchProcessor.parse_local_insights`.  Modelled from the spec: the
JSON-decoding front end of the function is missing from the repository
snapshot, so it is represented by the `parsed` argument — `some items`
when the model response decodes as a JSON array of objects, `none` when it
is malformed or not JSON; the normalization loop and the line fallback
follow the source fragment that is present. -/
def parse_local_insights (parsed : Option (List JObj)) (content : String) : List Insight :=
  match parsed with
  | some items => items.map normalizeInsight
  | none => parseLocalInsightsFallback content

/-! Report whitespace cleanup.  `verify_report_links` runs, after removing
broken links, `re.sub(r'\n\s*\n\s*\n', '\n\n', ...)`, then
`re.sub(r'^\s*\n', '', ..., flags=re.MULTILINE)`, then `.strip()`.  The two
regex passes are implemented as character scanners below; each is given
explicit fuel (one unit per consumed character, so `length` fuel always
suffices) to keep it structurally recursive and kernel-reducible. -/

/-- Number of newline characters in a string. -/
def nlCount (cs : List Char) : Nat := cs.countP (fun c => c = '\n')

/-- The leading whitespace run. -/
def wsRun (cs : List Char) : List Char := cs.takeWhile isWs

/-- Drop, from the front of `cs`, its leading whitespace run up to and
including the run's last newline (whitespace characters after that newline
are kept).  This is the portion a `\s*`-greedy regex match starting here
consumes after its first character. -/
def afterLastNl (cs : List Char) : List Char :=
  ((wsRun cs).reverse.takeWhile (fun c => ¬(c = '\n'))).reverse ++
    cs.drop (wsRun cs).length

/-- The scanner for `re.sub(r'\n\s*\n\s*\n', '\n\n', s)`: a match starts at
a newline whose whitespace run contains at least three newlines, extends
through the run's last newline, and is replaced by two newlines. -/
def sub3Go : Nat → List Char → List Char
  | 0, cs => cs
  | _ + 1, [] => []
  | fuel + 1, c :: rest =>
    if c = '\n' ∧ 3 ≤ nlCount (wsRun (c :: rest)) then
      '\n' :: '\n' :: sub3Go fuel (afterLastNl rest)
    else c :: sub3Go fuel rest

/-- `re.sub(r'\n\s*\n\s*\n', '\n\n', s)`. -/
def sub3nl (cs : List Char) : List Char := sub3Go cs.length cs

/-- The scanner for `re.sub(r'^\s*\n', '', s, flags=re.MULTILINE)`: at a
line start whose whitespace run contains a newline, the match extends
through the run's last newline and is deleted; the position after a match
is again a line start. -/
def leadGo : Nat → Bool → List Char → List Char
  | 0, _, cs => cs
  | _ + 1, _, [] => []
  | fuel + 1, lineStart, c :: rest =>
    if lineStart ∧ 1 ≤ nlCount (wsRun (c :: rest)) then
      leadGo fuel true (afterLastNl rest)
    else c :: leadGo fuel (c = '\n') rest

/-- `re.sub(r'^\s*\n', '', s, flags=re.MULTILINE)`. -/
def leadBlank (cs : List Char) : List Char := leadGo cs.length true cs

/-- The whitespace-collapse cleanup run by `verify_report_links` after
removing broken links: collapse multi-blank-line runs, delete blank lines
at line starts, then strip. -/
def cleanupReport (cs : List Char) : List Char :=
  trimBoth (leadBlank (sub3nl cs))

/-- `ResearchProcessor.clean_report_content`.  Modelled from the spec: the
body of `clean_report_content` is not present in the repository snapshot
(only its call site is); the specification identifies it with the
whitespace-collapse cleanup used after link removal, so it is modelled as
exactly that cleanup. -/
def clean_report_content (s : String) : String :=
  String.mk (cleanupReport s.toList)

/-! Link verification: `ResearchProcessor.verify_report_links` and the
verification summary. -/

/-- Outcome of the `HEAD` request issued for one URL. -/
inductive HeadResult where
  | status (code : Nat) : HeadResult
  | failed : HeadResult
deriving DecidableEq, Repr

/-- The markdown-link match of `re.findall(r'\[([^\]]+)\]\(([^)]+)\)', ...)`
at the current position: `[text](url)` with nonempty bracket-free text and
nonempty parenthesis-free url. -/
def linkAt : List Char → Option (List Char × List Char)
  | '[' :: rest =>
    let t := rest.takeWhile (fun x => ¬(x = ']'))
    let r1 := rest.drop t.length
    if t.isEmpty then none
    else
      match r1 with
      | ']' :: '(' :: r2 =>
        let u := r2.takeWhile (fun x => ¬(x = ')'))
        let r3 := r2.drop u.length
        if u.isEmpty then none
        else
          match r3 with
          | ')' :: _ => some (t, u)
          | _ => none
      | _ => none
  | _ => none

/-- Leftmost non-overlapping scan for markdown links (`re.findall`). -/
def findLinksGo : Nat → List Char → List (List Char × List Char)
  | 0, _ => []
  | _ + 1, [] => []
  | fuel + 1, c :: rest =>
    match linkAt (c :: rest) with
    | some (t, u) => (t, u) :: findLinksGo fuel (rest.drop (t.length + u.length + 3))
    | none => findLinksGo fuel rest

/-- All markdown links `[text](url)` of a report, in order. -/
def findLinks (cs : List Char) : List (List Char × List Char) :=
  findLinksGo cs.length cs

/-- The exact character sequence of a markdown link span `[text](url)`. -/
def mkSpan (t u : List Char) : List Char :=
  '[' :: (t ++ ']' :: '(' :: (u ++ [')']))

/-- Python `str.replace(pat, repl)`: replace every leftmost
non-overlapping occurrence. -/
def replaceAllGo (pat repl : List Char) : Nat → List Char → List Char
  | 0, cs => cs
  | _ + 1, [] => []
  | fuel + 1, c :: rest =>
    if ¬pat.isEmpty ∧ pat.isPrefixOf (c :: rest) then
      repl ++ replaceAllGo pat repl fuel (rest.drop (pat.length - 1))
    else c :: replaceAllGo pat repl fuel rest

/-- Python `cs.replace(pat, repl)` (an empty `pat`, which Python treats
specially, never occurs here: every span starts with `[`). -/
def replaceAll (pat repl cs : List Char) : List Char :=
  replaceAllGo pat repl cs.length cs

/-- The match of `re.sub(f"\\[{re.escape(text)}\\]\\([^)]+\\)", ...)` at
the current position: the literal `[text](`, a nonempty
parenthesis-free url, `)`.  Returns the matched url length. -/
def linkTextAt (t : List Char) (cs : List Char) : Option Nat :=
  if ('[' :: t ++ [']', '(']).isPrefixOf cs then
    let r2 := cs.drop (t.length + 3)
    let u := r2.takeWhile (fun x => ¬(x = ')'))
    if u.isEmpty then none
    else
      match r2.drop u.length with
      | ')' :: _ => some u.length
      | _ => none
  else none

/-- Replace every span `[t](...)` by `[t](newu)` (the verified-link
re-replacement pass of `verify_report_links`). -/
def replLinkGo (t newu : List Char) : Nat → List Char → List Char
  | 0, cs => cs
  | _ + 1, [] => []
  | fuel + 1, c :: rest =>
    match linkTextAt t (c :: rest) with
    | some uLen => mkSpan t newu ++ replLinkGo t newu fuel (rest.drop (t.length + uLen + 3))
    | none => c :: replLinkGo t newu fuel rest

/-- Wrapper for `replLinkGo` with sufficient fuel. -/
def replLink (t newu cs : List Char) : List Char :=
  replLinkGo t newu cs.length cs

/-- Link classification of `verify_report_links`: a URL under the
system's own `BASE_URL/data/` path is working without a request; otherwise
the HEAD outcome decides — status < 400 is working, any other status or
any exception is broken. -/
def linkWorks (base : List Char) (head : List Char → HeadResult) (url : List Char) : Bool :=
  if (base ++ "/data/".toList).isPrefixOf url then true
  else
    match head url with
    | .status code => decide (code < 400)
    | .failed => false

/-- Removal of the broken spans, in scan order (`str.replace` with the
empty string, one broken link after another). -/
def removeBrokenSpans (broken : List (List Char × List Char)) (report : List Char) :
    List Char :=
  broken.foldl (fun r p => replaceAll (mkSpan p.1 p.2) [] r) report

/-- `ResearchProcessor.verify_report_links`, as a function of the HEAD
oracle: find all markdown links, classify them, remove broken spans and
clean up whitespace, then re-substitute the verified URL into every
span sharing a verified link's text. -/
def verify_report_links (base : List Char) (head : List Char → HeadResult)
    (report : List Char) : List Char :=
  let links := findLinks report
  if links.isEmpty then report
  else
    let verified := links.filter (fun p => linkWorks base head p.2)
    let broken := links.filter (fun p => !(linkWorks base head p.2))
    let r1 :=
      if broken.isEmpty then report
      else trimBoth (leadBlank (sub3nl (removeBrokenSpans broken report)))
    verified.foldl
      (fun r p =>
        if containsSeq ('[' :: (p.1 ++ [']', '('])) r then replLink p.1 p.2 r else r)
      r1

/-- Totals of the link-verification summary block: links counted over the
cases' `verified_links` and `broken_links` lists. -/
def summaryCounts (cases : List RCase) : Nat × Nat × Nat :=
  cases.foldl
    (fun acc c =>
      (acc.1 + (c.verified_links.getD []).length,
        acc.2.1 + ((c.verified_links.getD []).filter
          (fun l => l.status == some "working")).length,
        acc.2.2 + (c.broken_links.getD []).length))
    (0, 0, 0)

/-- The working percentage reported by the summary block:
`working/total*100 if total > 0 else 0` (Python computes a float; the value
is modelled as a rational, which agrees exactly in the `total = 0` case the
claims are about). -/
def workingPercentage (cases : List RCase) : ℚ :=
  let counts := summaryCounts cases
  if 0 < counts.1 then (counts.2.1 * 100 : ℚ) / counts.1 else 0

/-- Invariant established by the triple-newline collapse: at every
position starting a newline, the whitespace run from there contains at
most two newlines. -/
def No3 : List Char → Prop
  | [] => True
  | c :: rest => (c = '\n' → nlCount (wsRun (c :: rest)) ≤ 2) ∧ No3 rest

/-- Invariant established by the leading-blank-line removal: at every line
start (tracked by the Boolean flag) the whitespace run contains no
newline. -/
def NoLead : Bool → List Char → Prop
  | _, [] => True
  | b, c :: rest => (b = true → nlCount (wsRun (c :: rest)) = 0) ∧ NoLead (c = '\n') rest

end Maclay

/-- Claim C1: in `_call_deepseek`, an HTTP 503 causes a fixed 5-second sleep
and an immediate retry that does not consume a retry attempt; any other
failure consumes one attempt and is followed by a `2 ^ attempt` backoff
sleep (2, 4, 8, 16 seconds for the four non-final failures); after 5 failed
attempts the last exception is re-raised. -/
theorem claim1_call_deepseek_retry_policy :
    (∀ (rest : List Maclay.HFOutcome) (attempt : Nat), attempt < 5 →
      Maclay.callDeepseekGo 5 (.s503 :: rest) attempt =
        (5 :: (Maclay.callDeepseekGo 5 rest attempt).1,
          (Maclay.callDeepseekGo 5 rest attempt).2)) ∧
    (∀ (rest : List Maclay.HFOutcome) (e : String) (attempt : Nat), attempt + 1 < 5 →
      Maclay.callDeepseekGo 5 (.httpErr e :: rest) attempt =
        (2 ^ (attempt + 1) :: (Maclay.callDeepseekGo 5 rest (attempt + 1)).1,
          (Maclay.callDeepseekGo 5 rest (attempt + 1)).2)) ∧
    (∀ e1 e2 e3 e4 e5 : String,
      Maclay.callDeepseek [.httpErr e1, .httpErr e2, .httpErr e3, .httpErr e4, .httpErr e5] =
        ([2, 4, 8, 16], .raised e5)) := by
  refine ⟨?_, ?_, ?_⟩
  · intro rest attempt h
    simp [Maclay.callDeepseekGo, h]
  · intro rest e attempt h
    have h5 : attempt < 5 := Nat.lt_of_succ_lt h
    simp [Maclay.callDeepseekGo, h5, Nat.not_le_of_lt h]
  · intro e1 e2 e3 e4 e5
    simp [Maclay.callDeepseek, Maclay.callDeepseekGo]

/-- Witness for C1: the 503 branch at a concrete input. -/
theorem claim1_witness :
    Maclay.callDeepseekGo 5 [.s503] 0 =
      (5 :: (Maclay.callDeepseekGo 5 [] 0).1, (Maclay.callDeepseekGo 5 [] 0).2) :=
  claim1_call_deepseek_retry_policy.1 [] 0 (by decide)

/-- Claim C2: `_execute_with_retry` invokes the stage function up to 3 times
total, sleeps `2 ^ attempt` seconds before each attempt after the first
(attempt 0 has no wait), emits one retry progress update at the start of
each retry attempt, and when every attempt raises it returns a structured
failure carrying the last exception instead of propagating it. -/
theorem claim2_execute_with_retry_policy (stageName : String)
    (o1 o2 o3 : Except String String) :
    ((Maclay.executeWithRetry stageName [o1, o2, o3]).calls ≤ 3) ∧
    ((Maclay.executeWithRetry stageName [o1, o2, o3]).sleeps =
      ((List.range (Maclay.executeWithRetry stageName [o1, o2, o3]).calls).drop 1).map
        (fun k => 2 ^ k)) ∧
    ((Maclay.executeWithRetry stageName [o1, o2, o3]).updates =
      ((List.range (Maclay.executeWithRetry stageName [o1, o2, o3]).calls).drop 1).map
        (fun k => ⟨stageName, "active", 0, Maclay.retryMessage k 3⟩)) ∧
    (∀ e1 e2 e3 : String, o1 = .error e1 → o2 = .error e2 → o3 = .error e3 →
      (Maclay.executeWithRetry stageName [o1, o2, o3]).result =
        .failure e3 (s!"{stageName}: {e3}")) ∧
    (∀ v : String, (Maclay.executeWithRetry stageName [o1, o2, o3]).result = .success v →
      Except.ok v ∈ [o1, o2, o3]) := by
  rcases o1 with e1 | v1 <;> rcases o2 with e2 | v2 <;> rcases o3 with e3 | v3 <;>
    refine ⟨?_, ?_, ?_, ?_, ?_⟩ <;>
      simp_all [Maclay.executeWithRetry, Maclay.executeWithRetryGo, List.range_succ]

/-- Witness for C2: a run in which every attempt raises. -/
theorem claim2_witness :
    (Maclay.executeWithRetry "st"
        ([Except.error "a", Except.error "b", Except.error "c"] :
          List (Except String String))).result =
      Maclay.StageResult.failure "c" "st: c" :=
  (claim2_execute_with_retry_policy "st" (Except.error "a") (Except.error "b")
      (Except.error "c")).2.2.2.1 "a" "b" "c" rfl rfl rfl

/-- Claim C3 counterexample: a failing run of
`_collect_market_data_internal` emits progress 10, 30, 40 and then the
error update with progress 0 — the emitted progress sequence is not
non-decreasing. -/
theorem claim3_counterexample :
    Maclay.progressOf (Maclay.dataCollectionUpdates (.error "boom") "feature") =
      [10, 30, 40, 0] ∧
    ¬ List.Chain' (· ≤ ·)
      (Maclay.progressOf (Maclay.dataCollectionUpdates (.error "boom") "feature")) := by
  constructor
  · rfl
  · intro h
    have h3 : List.Chain' (· ≤ ·) ([10, 30, 40, 0] : List Nat) := h
    have h4 : (40 : Nat) ≤ 0 :=
      (List.chain'_cons.mp (List.chain'_cons.mp (List.chain'_cons.mp h3).2).2).1
    omega

/-- Claim C3 (amended): within one execution of the stage body, on success
the emitted progress values are non-decreasing and the last update is
`completed` with progress 100; on failure every update before the final one
is non-decreasing and the final update is `error` with progress 0 (a drop
to 0, so the whole failing sequence is not monotone). -/
theorem claim3_progress_amended (content e research_type : String) :
    List.Chain' (· ≤ ·)
      (Maclay.progressOf (Maclay.dataCollectionUpdates (.ok content) research_type)) ∧
    ((Maclay.dataCollectionUpdates (.ok content) research_type).getLast?.map
        (fun u => (u.status, u.progress)) = some ("completed", 100)) ∧
    ((Maclay.dataCollectionUpdates (.error e) research_type).getLast?.map
        (fun u => (u.status, u.progress)) = some ("error", 0)) ∧
    List.Chain' (· ≤ ·)
      ((Maclay.progressOf (Maclay.dataCollectionUpdates (.error e) research_type)).dropLast) := by
  refine ⟨?_, ?_, ?_, ?_⟩ <;>
    simp [Maclay.dataCollectionUpdates, Maclay.progressOf]

/-- Claim C10: `extract_report_content` never returns an empty report: a
missing or empty model response yields the fixed placeholder, any other
text is returned unchanged. -/
theorem claim10_extract_report_content :
    (∀ r : Option String, Maclay.extract_report_content r ≠ "") ∧
    Maclay.extract_report_content none = "Ошибка при генерации отчета" ∧
    Maclay.extract_report_content (some "") = "Ошибка при генерации отчета" ∧
    (∀ s : String, s ≠ "" → Maclay.extract_report_content (some s) = s) := by
  refine ⟨?_, rfl, by decide, ?_⟩
  · intro r
    match r with
    | none => decide
    | some s =>
      by_cases h : s = "" <;> simp [Maclay.extract_report_content, h]
  · intro s hs
    simp [Maclay.extract_report_content, hs]

/-- Witness for C10: a non-empty response is returned unchanged. -/
theorem claim10_witness : Maclay.extract_report_content (some "отчет") = "отчет" :=
  claim10_extract_report_content.2.2.2 "отчет" (by decide)

/-- Claim C7: `enhance_report_with_links` returns the report unchanged when
the pool of working links is empty; at most 20 candidate links are sent;
the report content sent is `report[:15000]`, with the explicit truncation
marker exactly when the report is longer; and a failed or empty model call
falls back to the pre-enhancement report, so an empty result is never
propagated. -/
theorem claim7_enhance_report_policy (report : String) (cases : List Maclay.RCase)
    (outcome : Except String String) :
    ((Maclay.allVerifiedLinks cases).isEmpty = true →
      Maclay.enhance_report_with_links report cases outcome = report) ∧
    ((Maclay.sentCandidateLinks cases).length ≤ 20) ∧
    (∀ r : List Char, r.length ≤ Maclay.maxContentLength → Maclay.reportPreviewL r = r) ∧
    (∀ r : List Char, Maclay.maxContentLength < r.length →
      Maclay.reportPreviewL r =
        r.take Maclay.maxContentLength ++ Maclay.truncationMarker.toList) ∧
    (∀ e, outcome = .error e →
      Maclay.enhance_report_with_links report cases outcome = report) ∧
    (outcome = .ok "" → Maclay.enhance_report_with_links report cases outcome = report) ∧
    (report ≠ "" → Maclay.enhance_report_with_links report cases outcome ≠ "") := by
  refine ⟨?_, ?_, ?_, ?_, ?_, ?_, ?_⟩
  · intro h
    simp [Maclay.enhance_report_with_links, h]
  · simp [Maclay.sentCandidateLinks, List.length_take]
  · intro r hr
    simp [Maclay.reportPreviewL, Nat.not_lt_of_le hr, List.take_of_length_le hr]
  · intro r hr
    simp [Maclay.reportPreviewL, hr]
  · intro e he
    subst he
    by_cases h : (Maclay.allVerifiedLinks cases).isEmpty <;>
      simp [Maclay.enhance_report_with_links, h]
  · intro he
    subst he
    by_cases h : (Maclay.allVerifiedLinks cases).isEmpty <;>
      simp [Maclay.enhance_report_with_links, h]
  · intro hrep
    unfold Maclay.enhance_report_with_links
    by_cases h : (Maclay.allVerifiedLinks cases).isEmpty
    · simp [h, hrep]
    · simp only [h, Bool.false_eq_true, if_false]
      match outcome with
      | .error e => exact hrep
      | .ok enhanced =>
        by_cases he : enhanced = "" <;> simp [he, hrep]

/-- Witness for C7: a failing model call at a concrete input returns the
original report. -/
theorem claim7_witness :
    Maclay.enhance_report_with_links "отчет" [] (.error "boom") = "отчет" :=
  (claim7_enhance_report_policy "отчет" [] (.error "boom")).2.2.2.2.1 "boom" rfl

/-- Claim C4 counterexample: the single blank-line-terminated block
`Company: A / my website: x / Company: B` starts with a recognized company
label, yet `extract_companies_from_text` produces two records for it (a
second company label inside a block starts a new record), and the line
`my website: x` — which does not begin with a website label — still
populates the website field, because labels are matched by substring
containment, not as prefixes. -/
theorem claim4_counterexample :
    Maclay.extract_companies_from_text "Company: A\nmy website: x\nCompany: B\n" =
      [⟨some "A".toList, some "x".toList, none, none, []⟩,
        ⟨some "B".toList, none, none, none, []⟩] ∧
    (Maclay.extract_companies_from_text "Company: A\nmy website: x\nCompany: B\n").length ≠ 1 := by
  constructor
  · rfl
  · decide

/-- The field chain of `extract_companies_from_text` never touches the
`name` key. -/
theorem fieldStep_name (c : Maclay.Company) (l : List Char) :
    (Maclay.fieldStep c l).name = c.name := by
  unfold Maclay.fieldStep
  split_ifs <;> rfl

/-- One loop iteration of `extract_companies_from_text` preserves the
invariant that every finished record and the in-progress record carry a
`name` key. -/
theorem extractStep_name_invariant (st : List Maclay.Company × Option Maclay.Company)
    (raw : List Char)
    (h1 : ∀ c ∈ st.1, c.name.isSome = true)
    (h2 : ∀ c, st.2 = some c → c.name.isSome = true) :
    (∀ c ∈ (Maclay.extractStep st raw).1, c.name.isSome = true) ∧
    (∀ c, (Maclay.extractStep st raw).2 = some c → c.name.isSome = true) := by
  obtain ⟨acc, cur⟩ := st
  unfold Maclay.extractStep
  dsimp only
  split_ifs with hblank hname
  · rcases cur with _ | c
    · exact ⟨h1, by simp⟩
    · refine ⟨?_, by simp⟩
      intro x hx
      rcases List.mem_append.mp hx with hx | hx
      · exact h1 x hx
      · rcases List.mem_singleton.mp hx with rfl
        exact h2 x rfl
  · refine ⟨?_, ?_⟩
    · rcases cur with _ | c
      · exact h1
      · intro x hx
        rcases List.mem_append.mp hx with hx | hx
        · exact h1 x hx
        · rcases List.mem_singleton.mp hx with rfl
          exact h2 x rfl
    · intro x hx
      rcases cur with _ | c <;> simp at hx <;> subst hx <;>
        simp [Maclay.newCompany]
  · refine ⟨h1, ?_⟩
    intro x hx
    rcases cur with _ | c
    · simp at hx
    · simp at hx
      subst hx
      rw [fieldStep_name]
      exact h2 c rfl

/-- The record-name invariant holds through the whole line loop. -/
theorem extractFold_name_invariant (lines : List (List Char)) :
    ∀ (acc : List Maclay.Company) (cur : Option Maclay.Company),
      (∀ c ∈ acc, c.name.isSome = true) →
      (∀ c, cur = some c → c.name.isSome = true) →
      (∀ c ∈ (lines.foldl Maclay.extractStep (acc, cur)).1, c.name.isSome = true) ∧
      (∀ c, (lines.foldl Maclay.extractStep (acc, cur)).2 = some c →
        c.name.isSome = true) := by
  induction lines with
  | nil => intro acc cur h1 h2; exact ⟨h1, h2⟩
  | cons l ls ih =>
    intro acc cur h1 h2
    have hstep := extractStep_name_invariant (acc, cur) l h1 h2
    have := ih (Maclay.extractStep (acc, cur) l).1 (Maclay.extractStep (acc, cur) l).2
      hstep.1 hstep.2
    simpa [List.foldl_cons] using this

/-- Claim C9: every record produced by `extract_companies_from_text` has a
`name` key — field label lines and bare `http` lines are ignored unless a
company-label line has opened the current record. -/
theorem claim9_every_record_has_name (text : String) :
    ∀ c ∈ Maclay.extract_companies_from_text text, c.name.isSome = true := by
  intro c hc
  unfold Maclay.extract_companies_from_text Maclay.extractLines at hc
  have hinv := extractFold_name_invariant (Maclay.splitNl text.toList) [] none
    (by simp) (by simp)
  rcases List.mem_append.mp hc with hc | hc
  · exact hinv.1 c hc
  · rcases Option.mem_toList.mp hc with hc
    exact hinv.2 c hc

/-- Witness for C9 at a concrete input. -/
theorem claim9_witness :
    (⟨some "A".toList, none, none, none, []⟩ : Maclay.Company).name.isSome = true :=
  claim9_every_record_has_name "Company: A"
    ⟨some "A".toList, none, none, none, []⟩ (by decide)

/-- Splitting a newline-free line yields that line alone. -/
theorem splitNl_noNl (l : List Char) (h : '\n' ∉ l) : Maclay.splitNl l = [l] := by
  induction l with
  | nil => rfl
  | cons c rest ih =>
    have hc : ¬(c = '\n') := fun hcc => h (hcc ▸ List.mem_cons_self c rest)
    have hr : '\n' ∉ rest := fun hm => h (List.mem_cons_of_mem c hm)
    simp [Maclay.splitNl, hc, ih hr]

/-- Splitting peels off a leading newline-free line. -/
theorem splitNl_append (l rest : List Char) (h : '\n' ∉ l) :
    Maclay.splitNl (l ++ '\n' :: rest) = l :: Maclay.splitNl rest := by
  induction l with
  | nil => simp [Maclay.splitNl]
  | cons c t ih =>
    have hc : ¬(c = '\n') := fun hcc => h (hcc ▸ List.mem_cons_self c t)
    have ht : '\n' ∉ t := fun hm => h (List.mem_cons_of_mem c hm)
    simp [Maclay.splitNl, hc, ih ht]

/-- `splitNl` inverts `joinNl` on nonempty lists of newline-free lines. -/
theorem splitNl_joinNl (lines : List (List Char)) (hne : lines ≠ [])
    (h : ∀ l ∈ lines, '\n' ∉ l) : Maclay.splitNl (Maclay.joinNl lines) = lines := by
  induction lines with
  | nil => exact absurd rfl hne
  | cons l ls ih =>
    match ls with
    | [] => exact splitNl_noNl l (h l (List.mem_cons_self l []))
    | l2 :: ls2 =>
      have hjoin : Maclay.joinNl (l :: l2 :: ls2) =
          l ++ '\n' :: Maclay.joinNl (l2 :: ls2) := rfl
      rw [hjoin, splitNl_append l _ (h l (List.mem_cons_self l _)),
        ih (by simp) (fun x hx => h x (List.mem_cons_of_mem l hx))]

/-- Folding the extraction loop over non-blank non-name lines keeps the
accumulator and only applies `fieldStep` to the open record. -/
theorem extractFold_fieldLines (ls : List (List Char)) :
    ∀ (acc : List Maclay.Company) (c : Maclay.Company),
      (∀ l ∈ ls, Maclay.trimBoth l ≠ [] ∧ Maclay.isNameLine (Maclay.trimBoth l) = false) →
      ls.foldl Maclay.extractStep (acc, some c) =
        (acc, some (ls.foldl (fun c l => Maclay.fieldStep c (Maclay.trimBoth l)) c)) := by
  induction ls with
  | nil => intro acc c _; rfl
  | cons l t ih =>
    intro acc c h
    obtain ⟨hnb, hnn⟩ := h l (List.mem_cons_self l t)
    have hstep : Maclay.extractStep (acc, some c) l =
        (acc, some (Maclay.fieldStep c (Maclay.trimBoth l))) := by
      unfold Maclay.extractStep
      simp [hnb, hnn]
    rw [List.foldl_cons, hstep, ih acc _ (fun x hx => h x (List.mem_cons_of_mem l hx))]
    rfl

/-- Folding the extraction loop over a sequence of blank-line-terminated
well-formed blocks appends exactly one record per block. -/
theorem extractFold_blocks (blocks : List (List (List Char))) :
    ∀ acc : List Maclay.Company,
      (∀ b ∈ blocks, Maclay.WfBlock b) →
      (Maclay.blockLines blocks).foldl Maclay.extractStep (acc, none) =
        (acc ++ blocks.map Maclay.recordOfBlock, none) := by
  induction blocks with
  | nil => intro acc _; simp [Maclay.blockLines]
  | cons b bs ih =>
    intro acc hwf
    have hb : Maclay.WfBlock b := hwf b (List.mem_cons_self b bs)
    match b, hb with
    | h :: t, hbwf =>
      obtain ⟨hname, hline, htail⟩ := hbwf
      have hlines : Maclay.blockLines ((h :: t) :: bs) =
          ((h :: t) ++ [[]]) ++ Maclay.blockLines bs := by
        simp [Maclay.blockLines]
      rw [hlines, List.foldl_append]
      have hhead : Maclay.extractStep (acc, none) h =
          (acc, some (Maclay.newCompany (Maclay.trimBoth h))) := by
        unfold Maclay.extractStep
        simp [hline.1, hname]
      have hcons : ((h :: t) ++ [[]] : List (List Char)) = h :: (t ++ [[]]) := rfl
      rw [hcons, List.foldl_cons, hhead, List.foldl_append,
        extractFold_fieldLines t acc (Maclay.newCompany (Maclay.trimBoth h))
          (fun l hl => ⟨(htail l hl).1.1, (htail l hl).2⟩)]
      have hblank :
          Maclay.extractStep
              (acc, some (t.foldl (fun c l => Maclay.fieldStep c (Maclay.trimBoth l))
                (Maclay.newCompany (Maclay.trimBoth h)))) [] =
            (acc ++ [Maclay.recordOfBlock (h :: t)], none) := by
        unfold Maclay.extractStep
        simp [Maclay.trimBoth, Maclay.trimEndWhile, Maclay.recordOfBlock]
      rw [List.foldl_cons, hblank, List.foldl_nil,
        ih (acc ++ [Maclay.recordOfBlock (h :: t)])
          (fun x hx => hwf x (List.mem_cons_of_mem _ hx))]
      simp

/-- Claim C4 (amended): each company-label line starts a new record, and
labels are matched by case-insensitive substring containment; hence for a
text consisting of blank-line-terminated blocks, each of which opens with a
company-label line and continues with non-blank lines carrying no further
company label, `extract_companies_from_text` produces exactly one record
per block, whose fields are exactly those set by the block's own label
lines (website/country/characteristics from their label lines, `http`
lines appended to the link list, everything else ignored). -/
theorem claim4_amended_block_extraction (blocks : List (List (List Char)))
    (hne : blocks ≠ []) (hwf : ∀ b ∈ blocks, Maclay.WfBlock b) :
    Maclay.extract_companies_from_text
        (String.mk (Maclay.joinNl (Maclay.blockLines blocks))) =
      blocks.map Maclay.recordOfBlock := by
  unfold Maclay.extract_companies_from_text Maclay.extractLines
  have hdata : (String.mk (Maclay.joinNl (Maclay.blockLines blocks))).toList =
      Maclay.joinNl (Maclay.blockLines blocks) := rfl
  rw [hdata]
  have hlinesne : Maclay.blockLines blocks ≠ [] := by
    match blocks, hne with
    | b :: bs, _ =>
      have : Maclay.blockLines (b :: bs) = (b ++ [[]]) ++ Maclay.blockLines bs := by
        simp [Maclay.blockLines]
      rw [this]
      rcases b with _ | ⟨x, xs⟩ <;> simp
  have hnonl : ∀ l ∈ Maclay.blockLines blocks, '\n' ∉ l := by
    intro l hl
    unfold Maclay.blockLines at hl
    rcases List.mem_flatten.mp hl with ⟨piece, hpiece, hlp⟩
    rcases List.mem_map.mp hpiece with ⟨b, hb, rfl⟩
    rcases List.mem_append.mp hlp with hlb | hsing
    · have hwfb := hwf b hb
      match b, hwfb with
      | h :: t, hbwf =>
        rcases List.mem_cons.mp hlb with rfl | hlt
        · exact hbwf.2.1.2
        · exact ((hbwf.2.2 l hlt).1).2
    · rcases List.mem_singleton.mp hsing with rfl
      simp
  rw [splitNl_joinNl _ hlinesne hnonl, extractFold_blocks blocks [] hwf]
  simp

/-- Witness for the amended C4 at a concrete one-block input. -/
theorem claim4_amended_witness :
    Maclay.extract_companies_from_text
        (String.mk (Maclay.joinNl (Maclay.blockLines [["Company: A".toList]]))) =
      [Maclay.recordOfBlock ["Company: A".toList]] :=
  claim4_amended_block_extraction [["Company: A".toList]] (by simp)
    (by
      intro b hb
      rcases List.mem_singleton.mp hb with rfl
      refine ⟨by decide, ⟨by decide, by decide⟩, ?_⟩
      intro l hl
      simp at hl)

/-- Claim C5 counterexample: a well-formed JSON insight object that
provides `metrics` as the empty string is not round-tripped — the
null-coalescing `item.get("metrics") or None` replaces the provided (but
falsy) value with `null`. -/
theorem claim5_counterexample :
    (Maclay.parse_local_insights (some [[("metrics", Maclay.JVal.str "")]]) "").map
        (fun i => i.metrics) = [Maclay.JVal.null] ∧
      Maclay.JVal.null ≠ Maclay.JVal.str "" := by
  constructor
  · rfl
  · decide

/-- The fallback of `parse_local_insights` is exactly one minimal insight
per line whose bullet-stripped form is non-empty. -/
theorem parseLocalInsightsFallback_eq (content : String) :
    Maclay.parseLocalInsightsFallback content =
      (((Maclay.splitNl content.toList).map
          (Maclay.stripChars Maclay.isBulletChar)).filter
        (fun l => !l.isEmpty)).map Maclay.fallbackInsight := by
  unfold Maclay.parseLocalInsightsFallback
  induction Maclay.splitNl content.toList with
  | nil => rfl
  | cons raw rest ih =>
    rw [List.filterMap_cons, ih]
    by_cases h : (Maclay.stripChars Maclay.isBulletChar raw).isEmpty
    · simp [h]
    · simp [h]

/-- Claim C5 (amended): for a well-formed JSON array of insight objects,
`parse_local_insights` yields one normalized insight per object and
round-trips every provided field whose value is truthy (a provided falsy
value — empty string, empty list, null, zero, false — is coalesced to the
field's default); for malformed or non-JSON input it never throws and
degrades to one minimal `unknown.pdf` insight per non-empty
bullet-stripped line. -/
theorem claim5_insights_amended (items : List Maclay.JObj) (content : String) :
    ((Maclay.parse_local_insights (some items) content).length = items.length) ∧
    (∀ item ∈ items, ∀ v : Maclay.JVal, Maclay.truthy v = true →
      ((Maclay.jget item "source_file" = some v →
          (Maclay.normalizeInsight item).source_file = v) ∧
        (Maclay.jget item "download_link" = some v →
          (Maclay.normalizeInsight item).download_link = v) ∧
        (Maclay.jget item "section" = some v → (Maclay.normalizeInsight item).sect = v) ∧
        (Maclay.jget item "fact" = some v → (Maclay.normalizeInsight item).fact = v) ∧
        (Maclay.jget item "metrics" = some v → (Maclay.normalizeInsight item).metrics = v) ∧
        (Maclay.jget item "date" = some v → (Maclay.normalizeInsight item).date = v) ∧
        (Maclay.jget item "links" = some v → (Maclay.normalizeInsight item).links = v))) ∧
    (Maclay.parse_local_insights (some items) content = items.map Maclay.normalizeInsight) ∧
    (Maclay.parse_local_insights none content =
      (((Maclay.splitNl content.toList).map
          (Maclay.stripChars Maclay.isBulletChar)).filter
        (fun l => !l.isEmpty)).map Maclay.fallbackInsight) ∧
    (∀ i ∈ Maclay.parse_local_insights none content,
      i.source_file = Maclay.JVal.str "unknown.pdf" ∧
      i.download_link = Maclay.JVal.null ∧ i.links = Maclay.JVal.arr []) := by
  refine ⟨by simp [Maclay.parse_local_insights], ?_, rfl,
    parseLocalInsightsFallback_eq content, ?_⟩
  · intro item _ v hv
    refine ⟨?_, ?_, ?_, ?_, ?_, ?_, ?_⟩ <;>
      · intro hget
        simp [Maclay.normalizeInsight, Maclay.coalesce, hget, hv]
  · intro i hi
    unfold Maclay.parse_local_insights Maclay.parseLocalInsightsFallback at hi
    rcases List.mem_filterMap.mp hi with ⟨raw, _, hf⟩
    by_cases h : (Maclay.stripChars Maclay.isBulletChar raw).isEmpty
    · simp [h] at hf
    · simp [h] at hf
      subst hf
      exact ⟨rfl, rfl, rfl⟩

/-- Witness for the amended C5: a truthy provided `fact` field is
round-tripped at a concrete input. -/
theorem claim5_witness :
    (Maclay.normalizeInsight [("fact", Maclay.JVal.str "X")]).fact = Maclay.JVal.str "X" :=
  (((claim5_insights_amended [[("fact", Maclay.JVal.str "X")]] "").2.1
      [("fact", Maclay.JVal.str "X")] (by simp) (Maclay.JVal.str "X")
      (by decide)).2.2.2.1) rfl

/-- A list is a `isPrefixOf` of itself followed by anything. -/
theorem isPrefixOf_append_self (l t : List Char) : l.isPrefixOf (l ++ t) = true := by
  induction l with
  | nil => simp [List.isPrefixOf]
  | cons c rest ih => simp [List.isPrefixOf, ih]

/-- Fuel does not matter for `replaceAllGo` once it covers the input
length. -/
theorem replaceAllGo_fuel (pat repl : List Char) :
    ∀ (f1 f2 : Nat) (cs : List Char), cs.length ≤ f1 → cs.length ≤ f2 →
      Maclay.replaceAllGo pat repl f1 cs = Maclay.replaceAllGo pat repl f2 cs := by
  intro f1
  induction f1 with
  | zero =>
    intro f2 cs h1 _
    have : cs = [] := List.eq_nil_of_length_eq_zero (Nat.le_zero.mp h1)
    subst this
    cases f2 <;> rfl
  | succ f ih =>
    intro f2 cs h1 h2
    match cs with
    | [] => cases f2 <;> rfl
    | c :: rest =>
      match f2, h2 with
      | f2 + 1, h2 =>
        show Maclay.replaceAllGo pat repl (f + 1) (c :: rest) =
          Maclay.replaceAllGo pat repl (f2 + 1) (c :: rest)
        unfold Maclay.replaceAllGo
        by_cases hc : ¬pat.isEmpty ∧ pat.isPrefixOf (c :: rest)
        · simp only [hc, if_true]
          have hlen : (rest.drop (pat.length - 1)).length ≤ rest.length := by
            simp [List.length_drop]
          exact congrArg _ (ih f2 _ (Nat.le_trans hlen (Nat.le_of_succ_le_succ h1))
            (Nat.le_trans hlen (Nat.le_of_succ_le_succ h2)))
        · simp only [hc, if_false]
          exact congrArg _ (ih f2 rest (Nat.le_of_succ_le_succ h1)
            (Nat.le_of_succ_le_succ h2))

/-- The splice behaviour of `str.replace`: when the first occurrence of
`pat` is exactly at the end of a clean head `a`, the replacement rewrites
that occurrence and continues after it. -/
theorem replaceAll_splice (pat repl : List Char) (hpat : pat ≠ []) :
    ∀ (a b : List Char),
      (∀ i, i < a.length → pat.isPrefixOf ((a ++ pat ++ b).drop i) = false) →
      Maclay.replaceAll pat repl (a ++ pat ++ b) =
        a ++ repl ++ Maclay.replaceAll pat repl b := by
  have main : ∀ (fuel : Nat) (a b : List Char), (a ++ pat ++ b).length ≤ fuel →
      (∀ i, i < a.length → pat.isPrefixOf ((a ++ pat ++ b).drop i) = false) →
      Maclay.replaceAllGo pat repl fuel (a ++ pat ++ b) =
        a ++ repl ++ Maclay.replaceAll pat repl b := by
    intro fuel
    induction fuel with
    | zero =>
      intro a b hle _
      exfalso
      match pat, hpat with
      | p :: pt, _ => simp [List.length_append] at hle
    | succ f ih =>
      intro a b hle hocc
      match a with
      | [] =>
        match pat, hpat with
        | p :: pt, _ =>
          show Maclay.replaceAllGo (p :: pt) repl (f + 1) (p :: (pt ++ b)) = _
          unfold Maclay.replaceAllGo
          have hpre : (p :: pt).isPrefixOf ((p :: pt) ++ b) = true :=
            isPrefixOf_append_self (p :: pt) b
          simp only [List.cons_append] at hpre
          simp only [List.isEmpty_cons, Bool.false_eq_true, not_false_iff, true_and, hpre,
            if_true]
          have hdrop : (pt ++ b).drop ((p :: pt).length - 1) = b := by
            simp [List.drop_left]
          rw [hdrop]
          have : Maclay.replaceAllGo (p :: pt) repl f b =
              Maclay.replaceAll (p :: pt) repl b := by
            apply replaceAllGo_fuel
            · have := hle
              simp [List.length_append] at this ⊢
              omega
            · exact Nat.le_refl _
          simp [this]
      | x :: a2 =>
        have h0 := hocc 0 (by simp)
        show Maclay.replaceAllGo pat repl (f + 1) (x :: (a2 ++ pat ++ b)) = _
        unfold Maclay.replaceAllGo
        have hcond : ¬(¬pat.isEmpty ∧ pat.isPrefixOf (x :: (a2 ++ pat ++ b))) := by
          intro hcontra
          have := hcontra.2
          simp only [List.drop_zero, List.cons_append] at h0
          rw [h0] at this
          exact Bool.false_ne_true this
        simp only [hcond, if_false]
        have := ih a2 b (by simpa [List.length_append] using Nat.le_of_succ_le_succ hle)
          (fun i hi => by
            have := hocc (i + 1) (by simpa using Nat.succ_lt_succ hi)
            simpa using this)
        rw [this]
        simp
  intro a b hocc
  exact main (a ++ pat ++ b).length a b (Nat.le_refl _) hocc

/-- Claim C6 counterexample: in the report `[x](y) [x[x](y)](y)` with every
HEAD request failing, both scanned links are broken, yet the final report
still contains the broken span `[x](y)`: removing the occurrences of
`[x](y)` splices the surrounding text of the second span into a fresh
occurrence of `[x](y)`, which no later removal step deletes — so it is not
the case that every broken link's full markdown span is removed from the
report. -/
theorem claim6_counterexample :
    Maclay.verify_report_links "https://maclay.pro".toList
        (fun _ => Maclay.HeadResult.failed) "[x](y) [x[x](y)](y)".toList =
      "[x](y)".toList ∧
    ("x".toList, "y".toList) ∈ Maclay.findLinks "[x](y) [x[x](y)](y)".toList ∧
    Maclay.linkWorks "https://maclay.pro".toList (fun _ => Maclay.HeadResult.failed)
        "y".toList = false ∧
    Maclay.containsSeq (Maclay.mkSpan "x".toList "y".toList)
      (Maclay.verify_report_links "https://maclay.pro".toList
        (fun _ => Maclay.HeadResult.failed) "[x](y) [x[x](y)](y)".toList) = true := by
  refine ⟨rfl, ?_, rfl, rfl⟩
  decide

/-- Claim C6 (amended): link verification classifies a link as working iff
its URL is under the system's own static-document path or the HEAD request
returns a status below 400 (any other status or any exception is broken);
a report without links is returned unchanged; each broken link's span is
removed by a textual replace-all of that exact span — which deletes every
occurrence whose position is clean, but may splice adjacent text into a
fresh occurrence of a broken span, so a broken span can survive in the
final report; on the specification's scenario with links answering 200,
404 and connection-refused, exactly the 200 link survives and the other
two spans are removed; the summary block's working percentage is 0 when no
links are counted. -/
theorem claim6_link_verification_amended :
    (∀ (base : List Char) (head : List Char → Maclay.HeadResult) (url : List Char),
      Maclay.linkWorks base head url = true ↔
        ((base ++ "/data/".toList).isPrefixOf url = true ∨
          ∃ code, head url = .status code ∧ code < 400)) ∧
    (∀ (base : List Char) (head : List Char → Maclay.HeadResult) (report : List Char),
      Maclay.findLinks report = [] →
        Maclay.verify_report_links base head report = report) ∧
    (∀ (pat repl : List Char), pat ≠ [] → ∀ (a b : List Char),
      (∀ i, i < a.length → pat.isPrefixOf ((a ++ pat ++ b).drop i) = false) →
      Maclay.replaceAll pat repl (a ++ pat ++ b) =
        a ++ repl ++ Maclay.replaceAll pat repl b) ∧
    (∀ cases : List Maclay.RCase,
      (Maclay.summaryCounts cases).1 = 0 → Maclay.workingPercentage cases = 0) ∧
    (Maclay.verify_report_links "https://maclay.pro".toList
        (fun u =>
          if u = "http://ok".toList then Maclay.HeadResult.status 200
          else if u = "http://bad".toList then Maclay.HeadResult.status 404
          else Maclay.HeadResult.failed)
        "see [a](http://ok) and [b](http://bad) and [c](http://refused)".toList =
      "see [a](http://ok) and  and".toList) := by
  refine ⟨?_, ?_, ?_, ?_, by decide⟩
  · intro base head url
    unfold Maclay.linkWorks
    by_cases hpre : (base ++ "/data/".toList).isPrefixOf url = true
    · rw [if_pos hpre]
      simp only [true_iff]
      exact Or.inl hpre
    · rw [if_neg hpre]
      cases hh : head url with
      | status code =>
        simp only [decide_eq_true_eq]
        constructor
        · intro hcode
          exact Or.inr ⟨code, rfl, hcode⟩
        · rintro (h | ⟨c, hc, hlt⟩)
          · exact absurd h hpre
          · have hcc : code = c := by injection hc
            exact hcc ▸ hlt
      | failed =>
        constructor
        · intro h
          exact absurd h (by simp)
        · rintro (h | ⟨c, hc, _⟩)
          · exact absurd h hpre
          · exact Maclay.HeadResult.noConfusion hc
  · intro base head report hnone
    unfold Maclay.verify_report_links
    simp [hnone]
  · exact fun pat repl hpat => replaceAll_splice pat repl hpat
  · intro cases h0
    unfold Maclay.workingPercentage
    simp [h0]

/-- Witness for the amended C6: a report without links is returned
unchanged at a concrete input. -/
theorem claim6_witness :
    Maclay.verify_report_links "https://maclay.pro".toList
        (fun _ => Maclay.HeadResult.failed) "нет ссылок".toList = "нет ссылок".toList :=
  claim6_link_verification_amended.2.1 "https://maclay.pro".toList
    (fun _ => Maclay.HeadResult.failed) "нет ссылок".toList (by decide)

/-- Newline count of a cons. -/
theorem nlCount_cons (c : Char) (l : List Char) :
    Maclay.nlCount (c :: l) = Maclay.nlCount l + (if c = '\n' then 1 else 0) := by
  simp [Maclay.nlCount, List.countP_cons]

/-- Whitespace run of a cons with whitespace head. -/
theorem wsRun_cons_pos {c : Char} (l : List Char) (h : Maclay.isWs c = true) :
    Maclay.wsRun (c :: l) = c :: Maclay.wsRun l := by
  simp [Maclay.wsRun, List.takeWhile_cons_of_pos h]

/-- Whitespace run of a cons with non-whitespace head. -/
theorem wsRun_cons_neg {c : Char} (l : List Char) (h : ¬Maclay.isWs c = true) :
    Maclay.wsRun (c :: l) = [] := by
  simp [Maclay.wsRun, List.takeWhile_cons_of_neg h]

/-- A newline is whitespace. -/
theorem isWs_nl : Maclay.isWs '\n' = true := by decide

/-- `take` of the `takeWhile` length recovers `takeWhile`. -/
theorem take_len_takeWhile (p : Char → Bool) (cs : List Char) :
    cs.take (cs.takeWhile p).length = cs.takeWhile p := by
  induction cs with
  | nil => rfl
  | cons c rest ih =>
    by_cases h : p c
    · simp [List.takeWhile_cons_of_pos h, ih]
    · simp [List.takeWhile_cons_of_neg h]

/-- `drop` of the `takeWhile` length is `dropWhile`. -/
theorem drop_len_takeWhile (p : Char → Bool) (cs : List Char) :
    cs.drop (cs.takeWhile p).length = cs.dropWhile p := by
  induction cs with
  | nil => rfl
  | cons c rest ih =>
    by_cases h : p c
    · simp [List.takeWhile_cons_of_pos h, List.dropWhile_cons_of_pos h, ih]
    · simp [List.takeWhile_cons_of_neg h, List.dropWhile_cons_of_neg h]

/-- After `dropWhile p`, a further `takeWhile p` finds nothing. -/
theorem takeWhile_dropWhile_nil (p : Char → Bool) (cs : List Char) :
    (cs.dropWhile p).takeWhile p = [] := by
  induction cs with
  | nil => rfl
  | cons c rest ih =>
    by_cases h : p c
    · simp [List.dropWhile_cons_of_pos h, ih]
    · simp [List.dropWhile_cons_of_neg h, List.takeWhile_cons_of_neg h]

/-- Members of a `takeWhile` satisfy the predicate. -/
theorem pred_of_mem_takeWhile {p : Char → Bool} {a : Char} {l : List Char}
    (h : a ∈ l.takeWhile p) : p a = true :=
  List.all_eq_true.mp (List.all_takeWhile) a h

/-- `afterLastNl` only drops characters. -/
theorem afterLastNl_length (cs : List Char) :
    (Maclay.afterLastNl cs).length ≤ cs.length := by
  unfold Maclay.afterLastNl
  have h1 : ((Maclay.wsRun cs).reverse.takeWhile (fun c => ¬(c = '\n'))).length ≤
      (Maclay.wsRun cs).length := by
    have := (List.takeWhile_sublist (l := (Maclay.wsRun cs).reverse)
      (fun c => ¬(c = '\n'))).length_le
    simpa using this
  have h2 : (Maclay.wsRun cs).length ≤ cs.length :=
    (List.takeWhile_sublist (l := cs) Maclay.isWs).length_le
  simp only [List.length_append, List.length_reverse, List.length_drop]
  omega

/-- `afterLastNl` is a suffix: it equals a `drop`. -/
theorem afterLastNl_eq_drop (cs : List Char) :
    Maclay.afterLastNl cs =
      cs.drop ((Maclay.wsRun cs).length -
        ((Maclay.wsRun cs).reverse.takeWhile (fun c => ¬(c = '\n'))).length) := by
  unfold Maclay.afterLastNl
  set r := Maclay.wsRun cs with hr
  set k := (r.reverse.takeWhile (fun c => ¬(c = '\n'))).length with hk
  have hkr : k ≤ r.length := by
    have := (List.takeWhile_sublist (l := r.reverse) (fun c => ¬(c = '\n'))).length_le
    simpa [hk] using this
  have hcs : cs = r ++ cs.drop r.length := by
    conv_lhs => rw [← List.take_append_drop r.length cs]
    rw [show cs.take r.length = r from by
      rw [hr]
      exact take_len_takeWhile Maclay.isWs cs]
  have hsplit : cs.drop (r.length - k) = r.drop (r.length - k) ++ cs.drop r.length := by
    conv_lhs => rw [hcs]
    rw [List.drop_append_eq_append_drop]
    have : r.length - k - r.length = 0 := by omega
    rw [this, List.drop_zero]
  rw [hsplit]
  congr 1
  have htake : r.reverse.takeWhile (fun c => ¬(c = '\n')) = r.reverse.take k := by
    rw [hk]
    exact (take_len_takeWhile _ r.reverse).symm
  rw [htake, List.take_reverse, List.reverse_reverse]

/-- The whitespace run after `afterLastNl` contains no newline. -/
theorem nlCount_wsRun_afterLastNl (cs : List Char) :
    Maclay.nlCount (Maclay.wsRun (Maclay.afterLastNl cs)) = 0 := by
  unfold Maclay.afterLastNl
  set r := Maclay.wsRun cs with hr
  set tl := r.reverse.takeWhile (fun c => ¬(c = '\n')) with htl
  have hws : ∀ a ∈ tl.reverse, Maclay.isWs a = true := by
    intro a ha
    have ha2 : a ∈ tl := List.mem_reverse.mp ha
    have ha3 : a ∈ r.reverse := List.takeWhile_subset _ (htl ▸ ha2)
    have ha4 : a ∈ r := List.mem_reverse.mp ha3
    exact pred_of_mem_takeWhile (hr ▸ ha4)
  have hnl : ∀ a ∈ tl.reverse, ¬(a = '\n') := by
    intro a ha
    have ha2 : a ∈ tl := List.mem_reverse.mp ha
    have := pred_of_mem_takeWhile ha2
    simpa using this
  have hdropws : cs.drop r.length = cs.dropWhile Maclay.isWs := by
    rw [hr]
    exact drop_len_takeWhile Maclay.isWs cs
  have hrun : Maclay.wsRun (tl.reverse ++ cs.drop r.length) = tl.reverse := by
    unfold Maclay.wsRun
    rw [List.takeWhile_append_of_pos hws, hdropws,
      takeWhile_dropWhile_nil Maclay.isWs cs, List.append_nil]
  rw [hrun]
  exact List.countP_eq_zero.mpr (fun a ha => by simpa using hnl a ha)

/-- `No3` passes to the tail. -/
theorem No3_tail {c : Char} {rest : List Char} (h : Maclay.No3 (c :: rest)) :
    Maclay.No3 rest := h.2

/-- `No3` is closed under `drop`. -/
theorem No3_drop (n : Nat) : ∀ cs : List Char, Maclay.No3 cs → Maclay.No3 (cs.drop n) := by
  induction n with
  | zero => intro cs h; simpa using h
  | succ m ih =>
    intro cs h
    match cs with
    | [] => simpa using h
    | c :: rest =>
      rw [List.drop_succ_cons]
      exact ih rest (No3_tail h)

/-- `No3` is closed under `afterLastNl`. -/
theorem No3_afterLastNl {cs : List Char} (h : Maclay.No3 cs) :
    Maclay.No3 (Maclay.afterLastNl cs) := by
  rw [afterLastNl_eq_drop]
  exact No3_drop _ cs h

/-- The triple-newline collapse preserves a small leading whitespace
run. -/
theorem sub3Go_wsRun : ∀ (fuel : Nat) (cs : List Char), cs.length ≤ fuel →
    Maclay.nlCount (Maclay.wsRun cs) ≤ 2 →
    Maclay.wsRun (Maclay.sub3Go fuel cs) = Maclay.wsRun cs := by
  intro fuel
  induction fuel with
  | zero => intro cs _ _; rfl
  | succ f ih =>
    intro cs hlen hcnt
    match cs with
    | [] => rfl
    | c :: rest =>
      have hcond : ¬(c = '\n' ∧ 3 ≤ Maclay.nlCount (Maclay.wsRun (c :: rest))) := by
        rintro ⟨_, h2⟩
        omega
      show Maclay.wsRun (Maclay.sub3Go (f + 1) (c :: rest)) = _
      unfold Maclay.sub3Go
      rw [if_neg hcond]
      by_cases hws : Maclay.isWs c = true
      · rw [wsRun_cons_pos _ hws, wsRun_cons_pos _ hws]
        have hrest : Maclay.nlCount (Maclay.wsRun rest) ≤ 2 := by
          rw [wsRun_cons_pos _ hws, nlCount_cons] at hcnt
          omega
        rw [ih rest (Nat.le_of_succ_le_succ hlen) hrest]
      · rw [wsRun_cons_neg _ hws, wsRun_cons_neg _ hws]

/-- On a `No3` string, the triple-newline collapse is the identity. -/
theorem sub3Go_id : ∀ (fuel : Nat) (cs : List Char), cs.length ≤ fuel →
    Maclay.No3 cs → Maclay.sub3Go fuel cs = cs := by
  intro fuel
  induction fuel with
  | zero => intro cs _ _; rfl
  | succ f ih =>
    intro cs hlen h3
    match cs with
    | [] => rfl
    | c :: rest =>
      have hcond : ¬(c = '\n' ∧ 3 ≤ Maclay.nlCount (Maclay.wsRun (c :: rest))) := by
        rintro ⟨h1, h2⟩
        have := h3.1 h1
        omega
      show Maclay.sub3Go (f + 1) (c :: rest) = c :: rest
      unfold Maclay.sub3Go
      rw [if_neg hcond, ih rest (Nat.le_of_succ_le_succ hlen) (No3_tail h3)]

/-- The triple-newline collapse establishes `No3`. -/
theorem No3_sub3Go : ∀ (fuel : Nat) (cs : List Char), cs.length ≤ fuel →
    Maclay.No3 (Maclay.sub3Go fuel cs) := by
  intro fuel
  induction fuel with
  | zero =>
    intro cs h
    have : cs = [] := List.eq_nil_of_length_eq_zero (Nat.le_zero.mp h)
    subst this
    trivial
  | succ f ih =>
    intro cs hlen
    match cs with
    | [] => trivial
    | c :: rest =>
      show Maclay.No3 (Maclay.sub3Go (f + 1) (c :: rest))
      unfold Maclay.sub3Go
      by_cases hcond : c = '\n' ∧ 3 ≤ Maclay.nlCount (Maclay.wsRun (c :: rest))
      · rw [if_pos hcond]
        have hlen2 : (Maclay.afterLastNl rest).length ≤ f :=
          Nat.le_trans (afterLastNl_length rest) (Nat.le_of_succ_le_succ hlen)
        have hcnt0 : Maclay.nlCount (Maclay.wsRun (Maclay.afterLastNl rest)) = 0 :=
          nlCount_wsRun_afterLastNl rest
        have hXrun : Maclay.wsRun (Maclay.sub3Go f (Maclay.afterLastNl rest)) =
            Maclay.wsRun (Maclay.afterLastNl rest) :=
          sub3Go_wsRun f _ hlen2 (by omega)
        have hX3 : Maclay.No3 (Maclay.sub3Go f (Maclay.afterLastNl rest)) := ih _ hlen2
        refine ⟨fun _ => ?_, fun _ => ?_, hX3⟩
        · rw [wsRun_cons_pos _ isWs_nl, wsRun_cons_pos _ isWs_nl, nlCount_cons,
            nlCount_cons, hXrun, hcnt0]
          simp
        · rw [wsRun_cons_pos _ isWs_nl, nlCount_cons, hXrun, hcnt0]
          simp
      · rw [if_neg hcond]
        refine ⟨fun hc => ?_, ih rest (Nat.le_of_succ_le_succ hlen)⟩
        subst hc
        have hcnt : Maclay.nlCount (Maclay.wsRun ('\n' :: rest)) ≤ 2 := by
          by_contra hgt
          exact hcond ⟨rfl, by omega⟩
        have hrest : Maclay.nlCount (Maclay.wsRun rest) ≤ 1 := by
          rw [wsRun_cons_pos _ isWs_nl, nlCount_cons] at hcnt
          simp at hcnt
          omega
        have hYrun : Maclay.wsRun (Maclay.sub3Go f rest) = Maclay.wsRun rest :=
          sub3Go_wsRun f rest (Nat.le_of_succ_le_succ hlen) (by omega)
        rw [wsRun_cons_pos _ isWs_nl, nlCount_cons, hYrun]
        simp
        omega

/-- The blank-line removal can only lose newlines from the leading
whitespace run. -/
theorem leadGo_wsRun_le : ∀ (fuel : Nat) (b : Bool) (cs : List Char), cs.length ≤ fuel →
    Maclay.nlCount (Maclay.wsRun (Maclay.leadGo fuel b cs)) ≤
      Maclay.nlCount (Maclay.wsRun cs) := by
  intro fuel
  induction fuel with
  | zero => intro b cs _; exact Nat.le_refl _
  | succ f ih =>
    intro b cs hlen
    match cs with
    | [] => exact Nat.le_refl _
    | c :: rest =>
      show Maclay.nlCount (Maclay.wsRun (Maclay.leadGo (f + 1) b (c :: rest))) ≤ _
      unfold Maclay.leadGo
      by_cases hcond : b = true ∧ 1 ≤ Maclay.nlCount (Maclay.wsRun (c :: rest))
      · rw [if_pos hcond]
        have h0 := nlCount_wsRun_afterLastNl rest
        have := ih true (Maclay.afterLastNl rest)
          (Nat.le_trans (afterLastNl_length rest) (Nat.le_of_succ_le_succ hlen))
        omega
      · rw [if_neg hcond]
        by_cases hws : Maclay.isWs c = true
        · rw [wsRun_cons_pos _ hws, wsRun_cons_pos _ hws, nlCount_cons, nlCount_cons]
          have := ih (c = '\n') rest (Nat.le_of_succ_le_succ hlen)
          omega
        · rw [wsRun_cons_neg _ hws, wsRun_cons_neg _ hws]

/-- On a `NoLead` string, the blank-line removal is the identity. -/
theorem leadGo_id : ∀ (fuel : Nat) (b : Bool) (cs : List Char), cs.length ≤ fuel →
    Maclay.NoLead b cs → Maclay.leadGo fuel b cs = cs := by
  intro fuel
  induction fuel with
  | zero => intro b cs _ _; rfl
  | succ f ih =>
    intro b cs hlen hn
    match cs with
    | [] => rfl
    | c :: rest =>
      have hcond : ¬(b = true ∧ 1 ≤ Maclay.nlCount (Maclay.wsRun (c :: rest))) := by
        rintro ⟨hb, hcnt⟩
        have := hn.1 hb
        omega
      show Maclay.leadGo (f + 1) b (c :: rest) = c :: rest
      unfold Maclay.leadGo
      rw [if_neg hcond, ih (c = '\n') rest (Nat.le_of_succ_le_succ hlen) hn.2]

/-- The blank-line removal establishes `NoLead`. -/
theorem NoLead_leadGo : ∀ (fuel : Nat) (b : Bool) (cs : List Char), cs.length ≤ fuel →
    Maclay.NoLead b (Maclay.leadGo fuel b cs) := by
  intro fuel
  induction fuel with
  | zero =>
    intro b cs h
    have : cs = [] := List.eq_nil_of_length_eq_zero (Nat.le_zero.mp h)
    subst this
    trivial
  | succ f ih =>
    intro b cs hlen
    match cs with
    | [] => trivial
    | c :: rest =>
      show Maclay.NoLead b (Maclay.leadGo (f + 1) b (c :: rest))
      unfold Maclay.leadGo
      by_cases hcond : b = true ∧ 1 ≤ Maclay.nlCount (Maclay.wsRun (c :: rest))
      · rw [if_pos hcond]
        rcases hcond with ⟨hb, _⟩
        subst hb
        exact ih true (Maclay.afterLastNl rest)
          (Nat.le_trans (afterLastNl_length rest) (Nat.le_of_succ_le_succ hlen))
      · rw [if_neg hcond]
        refine ⟨fun hb => ?_, ih (c = '\n') rest (Nat.le_of_succ_le_succ hlen)⟩
        subst hb
        have hcnt : Maclay.nlCount (Maclay.wsRun (c :: rest)) = 0 := by
          by_contra hne
          exact hcond ⟨rfl, by omega⟩
        by_cases hws : Maclay.isWs c = true
        · rw [wsRun_cons_pos _ hws, nlCount_cons] at hcnt ⊢
          have := leadGo_wsRun_le f (c = '\n') rest (Nat.le_of_succ_le_succ hlen)
          omega
        · rw [wsRun_cons_neg _ hws]
          rfl

/-- The blank-line removal preserves `No3`. -/
theorem No3_leadGo : ∀ (fuel : Nat) (b : Bool) (cs : List Char), cs.length ≤ fuel →
    Maclay.No3 cs → Maclay.No3 (Maclay.leadGo fuel b cs) := by
  intro fuel
  induction fuel with
  | zero => intro b cs _ h; exact h
  | succ f ih =>
    intro b cs hlen h3
    match cs with
    | [] => trivial
    | c :: rest =>
      show Maclay.No3 (Maclay.leadGo (f + 1) b (c :: rest))
      unfold Maclay.leadGo
      by_cases hcond : b = true ∧ 1 ≤ Maclay.nlCount (Maclay.wsRun (c :: rest))
      · rw [if_pos hcond]
        exact ih true (Maclay.afterLastNl rest)
          (Nat.le_trans (afterLastNl_length rest) (Nat.le_of_succ_le_succ hlen))
          (No3_afterLastNl (No3_tail h3))
      · rw [if_neg hcond]
        refine ⟨fun hc => ?_, ih (c = '\n') rest (Nat.le_of_succ_le_succ hlen) (No3_tail h3)⟩
        subst hc
        have hin := h3.1 rfl
        rw [wsRun_cons_pos _ isWs_nl, nlCount_cons] at hin ⊢
        have := leadGo_wsRun_le f ('\n' = '\n') rest (Nat.le_of_succ_le_succ hlen)
        omega

/-- Unfolding equation for `trimEndWhile` on a cons. -/
theorem trimEndWhile_cons (p : Char → Bool) (c : Char) (rest : List Char) :
    Maclay.trimEndWhile p (c :: rest) =
      if (Maclay.trimEndWhile p rest).isEmpty ∧ p c then []
      else c :: Maclay.trimEndWhile p rest := rfl

/-- Right-trimming can only lose newlines from the leading whitespace
run. -/
theorem nlCount_wsRun_trimEnd_le (cs : List Char) :
    Maclay.nlCount (Maclay.wsRun (Maclay.trimEndWhile Maclay.isWs cs)) ≤
      Maclay.nlCount (Maclay.wsRun cs) := by
  induction cs with
  | nil => exact Nat.le_refl _
  | cons c rest ih =>
    rw [trimEndWhile_cons]
    by_cases hif : (Maclay.trimEndWhile Maclay.isWs rest).isEmpty ∧ Maclay.isWs c
    · rw [if_pos hif]
      exact Nat.zero_le _
    · rw [if_neg hif]
      by_cases hws : Maclay.isWs c = true
      · rw [wsRun_cons_pos _ hws, wsRun_cons_pos _ hws, nlCount_cons, nlCount_cons]
        omega
      · rw [wsRun_cons_neg _ hws, wsRun_cons_neg _ hws]

/-- Right-trimming preserves `No3`. -/
theorem No3_trimEnd {cs : List Char} (h : Maclay.No3 cs) :
    Maclay.No3 (Maclay.trimEndWhile Maclay.isWs cs) := by
  induction cs with
  | nil => trivial
  | cons c rest ih =>
    rw [trimEndWhile_cons]
    by_cases hif : (Maclay.trimEndWhile Maclay.isWs rest).isEmpty ∧ Maclay.isWs c
    · rw [if_pos hif]
      trivial
    · rw [if_neg hif]
      refine ⟨fun hc => ?_, ih (No3_tail h)⟩
      subst hc
      have hin := h.1 rfl
      rw [wsRun_cons_pos _ isWs_nl, nlCount_cons] at hin ⊢
      have := nlCount_wsRun_trimEnd_le rest
      omega

/-- Left-trimming preserves `No3`. -/
theorem No3_dropWhile {cs : List Char} (h : Maclay.No3 cs) :
    Maclay.No3 (cs.dropWhile Maclay.isWs) := by
  induction cs with
  | nil => trivial
  | cons c rest ih =>
    by_cases hws : Maclay.isWs c = true
    · rw [List.dropWhile_cons_of_pos hws]
      exact ih (No3_tail h)
    · rw [List.dropWhile_cons_of_neg hws]
      exact h

/-- `NoLead` at a line start implies `NoLead` off a line start. -/
theorem NoLead_false_of {b : Bool} {cs : List Char} (h : Maclay.NoLead b cs) :
    Maclay.NoLead false cs := by
  match cs with
  | [] => trivial
  | c :: rest => exact ⟨fun hb => (Bool.false_ne_true hb).elim, h.2⟩

/-- A clean leading run upgrades `NoLead` to a line start. -/
theorem NoLead_true_of {cs : List Char} (hcnt : Maclay.nlCount (Maclay.wsRun cs) = 0)
    (h : Maclay.NoLead false cs) : Maclay.NoLead true cs := by
  match cs with
  | [] => trivial
  | c :: rest => exact ⟨fun _ => hcnt, h.2⟩

/-- Left-trimming preserves `NoLead` at a line start. -/
theorem NoLead_dropWhile {cs : List Char} (h : Maclay.NoLead true cs) :
    Maclay.NoLead true (cs.dropWhile Maclay.isWs) := by
  induction cs with
  | nil => trivial
  | cons c rest ih =>
    by_cases hws : Maclay.isWs c = true
    · rw [List.dropWhile_cons_of_pos hws]
      have hcnt := h.1 rfl
      rw [wsRun_cons_pos _ hws, nlCount_cons] at hcnt
      have hc : ¬(c = '\n') := by
        intro hcc
        rw [if_pos hcc] at hcnt
        omega
      have hrest0 : Maclay.nlCount (Maclay.wsRun rest) = 0 := by
        rw [if_neg hc] at hcnt
        omega
      have h2 : Maclay.NoLead false rest := by
        have := h.2
        rwa [decide_eq_false hc] at this
      exact ih (NoLead_true_of hrest0 h2)
    · rw [List.dropWhile_cons_of_neg hws]
      exact h

/-- Right-trimming preserves `NoLead`. -/
theorem NoLead_trimEnd : ∀ (b : Bool) (cs : List Char), Maclay.NoLead b cs →
    Maclay.NoLead b (Maclay.trimEndWhile Maclay.isWs cs) := by
  intro b cs
  induction cs generalizing b with
  | nil => intro h; exact h
  | cons c rest ih =>
    intro h
    rw [trimEndWhile_cons]
    by_cases hif : (Maclay.trimEndWhile Maclay.isWs rest).isEmpty ∧ Maclay.isWs c
    · rw [if_pos hif]
      trivial
    · rw [if_neg hif]
      refine ⟨fun hb => ?_, ih _ h.2⟩
      have hcnt := h.1 hb
      by_cases hws : Maclay.isWs c = true
      · rw [wsRun_cons_pos _ hws, nlCount_cons] at hcnt ⊢
        have := nlCount_wsRun_trimEnd_le rest
        omega
      · rw [wsRun_cons_neg _ hws]
        rfl

/-- `trimEndWhile` is idempotent. -/
theorem trimEnd_idem (p : Char → Bool) (cs : List Char) :
    Maclay.trimEndWhile p (Maclay.trimEndWhile p cs) = Maclay.trimEndWhile p cs := by
  induction cs with
  | nil => rfl
  | cons c rest ih =>
    rw [trimEndWhile_cons]
    by_cases hif : (Maclay.trimEndWhile p rest).isEmpty ∧ p c
    · rw [if_pos hif]
      rfl
    · rw [if_neg hif, trimEndWhile_cons, ih, if_neg hif]

/-- The head of a `dropWhile` fails the predicate. -/
theorem pred_head_dropWhile {p : Char → Bool} :
    ∀ (cs : List Char) {c : Char} {t : List Char},
      cs.dropWhile p = c :: t → p c = false := by
  intro cs
  induction cs with
  | nil => intro c t h; exact absurd h (by simp)
  | cons x rest ih =>
    intro c t h
    by_cases hx : p x = true
    · rw [List.dropWhile_cons_of_pos hx] at h
      exact ih h
    · rw [List.dropWhile_cons_of_neg hx] at h
      cases h
      simpa using hx

/-- A trimmed string has no leading whitespace left. -/
theorem dropWhile_trimBoth (u : List Char) :
    (Maclay.trimBoth u).dropWhile Maclay.isWs = Maclay.trimBoth u := by
  unfold Maclay.trimBoth
  cases hdrop : u.dropWhile Maclay.isWs with
  | nil => rfl
  | cons c t =>
    have hc : Maclay.isWs c = false := pred_head_dropWhile u hdrop
    rw [trimEndWhile_cons]
    have hif : ¬((Maclay.trimEndWhile Maclay.isWs t).isEmpty ∧ Maclay.isWs c) := by
      rintro ⟨_, hcc⟩
      rw [hc] at hcc
      exact Bool.false_ne_true hcc
    rw [if_neg hif, List.dropWhile_cons_of_neg (by rw [hc]; exact Bool.false_ne_true)]

/-- `trimBoth` is idempotent. -/
theorem trimBoth_idem (u : List Char) :
    Maclay.trimBoth (Maclay.trimBoth u) = Maclay.trimBoth u := by
  conv_lhs => rw [Maclay.trimBoth]
  rw [dropWhile_trimBoth]
  show Maclay.trimEndWhile Maclay.isWs (Maclay.trimEndWhile Maclay.isWs _) = _
  rw [trimEnd_idem]
  rfl

/-- Claim C8: the report whitespace-collapse cleanup — `clean_report_content`
and the multiple-blank-line / leading-blank-line collapse plus strip used
after link removal — is idempotent: applying the cleanup to already-clean
text returns it unchanged, i.e. cleanup composed with itself equals
cleanup. -/
theorem claim8_cleanup_idempotent (s : String) (cs : List Char) :
    Maclay.clean_report_content (Maclay.clean_report_content s) =
      Maclay.clean_report_content s ∧
    Maclay.cleanupReport (Maclay.cleanupReport cs) = Maclay.cleanupReport cs := by
  have hfix : ∀ t : List Char, Maclay.No3 t → Maclay.NoLead true t →
      Maclay.trimBoth t = t → Maclay.cleanupReport t = t := by
    intro t h3 hL htr
    unfold Maclay.cleanupReport
    have hs : Maclay.sub3nl t = t := by
      unfold Maclay.sub3nl
      exact sub3Go_id _ _ (Nat.le_refl _) h3
    have hl2 : Maclay.leadBlank t = t := by
      unfold Maclay.leadBlank
      exact leadGo_id _ true _ (Nat.le_refl _) hL
    rw [hs, hl2, htr]
  have main : ∀ l : List Char,
      Maclay.cleanupReport (Maclay.cleanupReport l) = Maclay.cleanupReport l := by
    intro l
    have h3u1 : Maclay.No3 (Maclay.sub3nl l) := by
      unfold Maclay.sub3nl
      exact No3_sub3Go l.length l (Nat.le_refl _)
    have h3u2 : Maclay.No3 (Maclay.leadBlank (Maclay.sub3nl l)) := by
      unfold Maclay.leadBlank
      exact No3_leadGo _ true _ (Nat.le_refl _) h3u1
    have hLu2 : Maclay.NoLead true (Maclay.leadBlank (Maclay.sub3nl l)) := by
      unfold Maclay.leadBlank
      exact NoLead_leadGo _ true _ (Nat.le_refl _)
    have h3t : Maclay.No3 (Maclay.trimBoth (Maclay.leadBlank (Maclay.sub3nl l))) := by
      unfold Maclay.trimBoth
      exact No3_trimEnd (No3_dropWhile h3u2)
    have hLt : Maclay.NoLead true (Maclay.trimBoth (Maclay.leadBlank (Maclay.sub3nl l))) := by
      unfold Maclay.trimBoth
      exact NoLead_trimEnd true _ (NoLead_dropWhile hLu2)
    exact hfix (Maclay.trimBoth (Maclay.leadBlank (Maclay.sub3nl l))) h3t hLt
      (trimBoth_idem _)
  refine ⟨?_, main cs⟩
  show String.mk (Maclay.cleanupReport (String.mk (Maclay.cleanupReport s.toList)).toList) =
    String.mk (Maclay.cleanupReport s.toList)
  rw [show (String.mk (Maclay.cleanupReport s.toList)).toList =
      Maclay.cleanupReport s.toList from rfl, main s.toList]
